import Mathlib

/-!
Verification of the Hangman HMM + Q-learning repository.

Shallow embedding conventions:
* Python strings are `List Char`; Python sets of letters are `Finset Char`.
* Python dicts mapping letters to numbers (scores, probabilities,
  frequencies) are total functions `Char → ℚ` with the convention that a
  key is absent iff its value is `0`.  Every insertion the source performs
  into those dicts adds a strictly positive quantity, so the convention is
  faithful.  Sums of dict values (`sum(d.values())` in the source) become
  sums over the 26-letter alphabet, which is sound because the source only
  ever inserts keys drawn from `set('abcdefghijklmnopqrstuvwxyz')`.
* Python floats are rationals `ℚ` (exact arithmetic; a sum that is exactly
  1 is in particular 1 within the spec's 1e-6 tolerance).
* Rewards are integers `Int` (every reward the source computes is an
  integer).
-/

/-- The 26-letter lowercase alphabet, `'abcdefghijklmnopqrstuvwxyz'`. -/
def alphabet : List Char :=
  ['a','b','c','d','e','f','g','h','i','j','k','l','m',
   'n','o','p','q','r','s','t','u','v','w','x','y','z']

/-- The alphabet as a finite set, `set('abcdefghijklmnopqrstuvwxyz')`. -/
def alphabetFinset : Finset Char := alphabet.toFinset

/-- A single lowercase ASCII letter. -/
def isLowerAlpha (c : Char) : Prop := 'a' ≤ c ∧ c ≤ 'z'

instance : DecidablePred isLowerAlpha := fun _ => instDecidableAnd

/-- Key set of a letter-to-probability dict under the absent-iff-zero
convention. -/
def keySet (f : Char → ℚ) : Finset Char := alphabetFinset.filter (fun c => f c ≠ 0)

/-- Sum of the values of a letter dict (`sum(d.values())` in the source,
for dicts whose keys are lowercase letters). -/
def sumAlpha (f : Char → ℚ) : ℚ := (alphabet.map f).sum

/-! ## Game environment (`hangman_env.py`, class `HangmanEnvironment`)

The mutable attributes of the Python object become the fields of a
structure; `step` returns the updated structure together with the reward,
done flag and info, exactly as the Python method returns
`(state, reward, self.game_over, info)`. -/

/-- The environment's mutable attributes (`hangman_env.py`, `__init__`). -/
structure HangmanEnvironment where
  max_wrong : Nat
  target_word : List Char
  masked_word : List Char
  guessed_letters : Finset Char
  wrong_guesses : Nat
  game_over : Bool
  won : Bool
deriving DecidableEq

/-- The `info` dict built by `step` (only the fields consulted by the
agent; `msg` is presentation-only). -/
structure StepInfo where
  repeated : Bool
  correct : Bool
deriving DecidableEq

/-- The snapshot dict returned by `_get_state` (`hangman_env.py` lines
86-96).  `lives_remaining` is `self.max_wrong - self.wrong_guesses`,
computed in `Int` because Python subtraction can go negative. -/
structure GameState where
  masked_word : List Char
  guessed_letters : Finset Char
  wrong_guesses : Nat
  lives_remaining : Int
  game_over : Bool
  won : Bool
  target_word : List Char
deriving DecidableEq

/-- `HangmanEnvironment.reset(word)` (lines 25-38): lowercase the given
word, mask everything, clear all per-episode state.  (The `word=None`
branch picks a corpus word at random; a run with a random word is a run
with that particular word, so the embedding takes the word as input.) -/
def HangmanEnvironment.reset (mw : Nat) (word : List Char) : HangmanEnvironment :=
  let target := word.map Char.toLower
  { max_wrong := mw
    target_word := target
    masked_word := List.replicate target.length '_'
    guessed_letters := ∅
    wrong_guesses := 0
    game_over := false
    won := false }

/-- The masked-word update inside `step` (lines 56-62): for each position
of the target equal to the guessed letter, reveal it; all other positions
keep their current masked character.  (The source writes into
`list(self.masked_word)` at indices of `enumerate(self.target_word)`;
on every reachable state the two have equal length.) -/
def revealLetter (target masked : List Char) (letter : Char) : List Char :=
  match target, masked with
  | t :: ts, m :: ms => (if t = letter then letter else m) :: revealLetter ts ms letter
  | _, ms => ms

/-- `HangmanEnvironment.step(letter)` (lines 40-84).  The letter is
lowercased, added to the guessed set unconditionally, and then the three
branches (repeated / correct / wrong) compute the reward and state
updates.  Returns `(new state, reward, game_over, info)`. -/
def HangmanEnvironment.step (env : HangmanEnvironment) (letter0 : Char) :
    HangmanEnvironment × Int × Bool × StepInfo :=
  let letter := letter0.toLower
  if letter ∈ env.guessed_letters then
    ({ env with guessed_letters := insert letter env.guessed_letters },
      -2, env.game_over, ⟨true, false⟩)
  else
    let env1 := { env with guessed_letters := insert letter env.guessed_letters }
    if letter ∈ env.target_word then
      let new_masked := revealLetter env.target_word env.masked_word letter
      if '_' ∈ new_masked then
        ({ env1 with masked_word := new_masked },
          10 * (env.target_word.count letter : Int), env.game_over, ⟨false, true⟩)
      else
        ({ env1 with masked_word := new_masked, won := true, game_over := true },
          10 * (env.target_word.count letter : Int) + 100, true, ⟨false, true⟩)
    else
      if env.wrong_guesses + 1 ≥ env.max_wrong then
        ({ env1 with wrong_guesses := env.wrong_guesses + 1, game_over := true },
          -5 - 50, true, ⟨false, false⟩)
      else
        ({ env1 with wrong_guesses := env.wrong_guesses + 1 },
          -5, env.game_over, ⟨false, false⟩)

/-- `HangmanEnvironment._get_state` (lines 86-96). -/
def HangmanEnvironment.get_state (env : HangmanEnvironment) : GameState :=
  { masked_word := env.masked_word
    guessed_letters := env.guessed_letters
    wrong_guesses := env.wrong_guesses
    lives_remaining := (env.max_wrong : Int) - (env.wrong_guesses : Int)
    game_over := env.game_over
    won := env.won
    target_word := env.target_word }

/-- Run a sequence of `step` calls, keeping the resulting state. -/
def HangmanEnvironment.runTrace (env : HangmanEnvironment) : List Char → HangmanEnvironment
  | [] => env
  | l :: ls => HangmanEnvironment.runTrace (env.step l).1 ls

/-- The trace only ever calls `step` on a non-terminated state (episode
semantics: the training/evaluation loops stop at `game_over`). -/
def HangmanEnvironment.SteppedLive (env : HangmanEnvironment) : List Char → Prop
  | [] => True
  | l :: ls => env.game_over = false ∧ HangmanEnvironment.SteppedLive (env.step l).1 ls

/-- State invariant maintained by `reset`/`step`: the masked word reveals
exactly the guessed positions of the target, and a live game has either
room for another wrong guess or none made yet. -/
def HangmanEnvironment.Inv (env : HangmanEnvironment) : Prop :=
  env.masked_word = env.target_word.map (fun c => if c ∈ env.guessed_letters then c else '_')
  ∧ (env.game_over = false → env.wrong_guesses < env.max_wrong ∨ env.wrong_guesses = 0)


/-! ## Letter predictor (`hangman_hmm.py`, class `HangmanHMM`)

`self.models` and `self.letter_frequencies` are Python dicts keyed by word
length; they become association lists (`List (Nat × _)`) so that the
fallback's iteration over `self.letter_frequencies.values()` is
expressible.  Per-position emission dicts and frequency dicts follow the
absent-iff-zero convention described at the top of the file. -/

/-- The per-length model built by `_train_length_model` (lines 38-61):
per-position emission probabilities plus the training words of that
length. -/
structure LengthModel where
  emission_probs : Nat → Char → ℚ
  words : List (List Char)

/-- The trained predictor state (`__init__`, lines 12-14). -/
structure HangmanHMM where
  models : List (Nat × LengthModel)
  letter_frequencies : List (Nat × (Char → ℚ))

/-- `_train_length_model` (lines 38-61): `emission_probs[pos][letter]` is
the number of bucket words with `letter` at `pos` divided by the number of
bucket words reaching position `pos` (all of them, since the bucket is a
fixed length). -/
def HangmanHMM.train_length_model (ws : List (List Char)) : LengthModel :=
  { emission_probs := fun pos c =>
      ((ws.countP (fun w => w.get? pos = some c) : Nat) : ℚ) /
        ((ws.countP (fun w => decide (pos < w.length)) : Nat) : ℚ)
    words := ws }

/-- `_calculate_frequencies` (lines 63-68): letter counts over the
concatenation of the words, divided by the total length. -/
def HangmanHMM.calculate_frequencies (ws : List (List Char)) : Char → ℚ :=
  fun c => (((ws.map (fun w => w.count c)).sum : Nat) : ℚ) /
    (((ws.map List.length).sum : Nat) : ℚ)

/-- `train` (lines 16-36): lowercase the corpus words, keep the alphabetic
ones, bucket them by length, and build one `LengthModel` plus one
frequency table per observed length.  (`str.isalpha` is modelled as
all-characters-in-`a`..`z`, the ASCII case; the corpus is ASCII.) -/
def HangmanHMM.train (corpus : List (List Char)) : HangmanHMM :=
  let words := (corpus.map (fun w => w.map Char.toLower)).filter
    (fun w => w.all (fun c => decide (isLowerAlpha c)))
  let lengths := (words.map List.length).dedup
  { models := lengths.map (fun n =>
      (n, HangmanHMM.train_length_model (words.filter (fun w => w.length = n))))
    letter_frequencies := lengths.map (fun n =>
      (n, HangmanHMM.calculate_frequencies (words.filter (fun w => w.length = n)))) }

/-- The per-word test inside `_filter_matching_words` (lines 106-121),
expressed as a simultaneous recursion on the word and the mask: equal
lengths, revealed positions must agree, unrevealed positions must not
carry an already-guessed letter. -/
def HangmanHMM.matchesMask (word masked : List Char) (guessed : Finset Char) : Bool :=
  match word, masked with
  | [], [] => true
  | c :: cs, m :: ms =>
      (if m = '_' then decide (c ∉ guessed) else decide (c = m))
        && HangmanHMM.matchesMask cs ms guessed
  | _, _ => false

/-- `_filter_matching_words` (lines 103-123). -/
def HangmanHMM.filter_matching_words (ws : List (List Char)) (masked : List Char)
    (guessed : Finset Char) : List (List Char) :=
  ws.filter (fun w => HangmanHMM.matchesMask w masked guessed)

/-- The indices of the placeholder positions of the mask. -/
def unrevealedPositions (masked : List Char) : List Nat :=
  (List.range masked.length).filter (fun i => masked.get? i = some '_')

/-- `_position_based_scoring` (lines 125-135): for each unrevealed
position add that position's emission probability of the letter;
restricted to the remaining (unguessed) letters. -/
def HangmanHMM.position_based_scoring (masked : List Char)
    (emission_probs : Nat → Char → ℚ) (remaining : Finset Char) : Char → ℚ :=
  fun c => if c ∈ remaining then
    ((unrevealedPositions masked).map (fun pos => emission_probs pos c)).sum
  else 0

/-- `_frequency_based_scoring` (lines 137-148): count, over the matching
words, occurrences of each remaining letter at unrevealed positions. -/
def HangmanHMM.frequency_based_scoring (ws : List (List Char)) (masked : List Char)
    (remaining : Finset Char) : Char → ℚ :=
  fun c => if c ∈ remaining then
    (((ws.map (fun w =>
        ((unrevealedPositions masked).filter (fun pos => w.get? pos = some c)).length)).sum
      : Nat) : ℚ)
  else 0

/-- The frequency table selected by `_fallback_probabilities` (lines
152-160): the table for this length if one exists, otherwise the
aggregation of all per-length tables normalized by its own total. -/
def HangmanHMM.fallback_freq (h : HangmanHMM) (length : Nat) : Char → ℚ :=
  match h.letter_frequencies.lookup length with
  | some f => f
  | none =>
      let all_freq : Char → ℚ := fun c => (h.letter_frequencies.map (fun p => p.2 c)).sum
      fun c => all_freq c / sumAlpha all_freq

/-- The restricted dict `remaining_freq` of `_fallback_probabilities`
(line 163): every unguessed letter gets its table frequency, or the prior
`0.01` if absent from the table. -/
def HangmanHMM.remaining_freq (h : HangmanHMM) (guessed : Finset Char) (length : Nat) :
    Char → ℚ :=
  fun c => if c ∈ alphabetFinset \ guessed then
    (if h.fallback_freq length c = 0 then 1/100 else h.fallback_freq length c)
  else 0

/-- `_fallback_probabilities` (lines 150-166). -/
def HangmanHMM.fallback_probabilities (h : HangmanHMM) (guessed : Finset Char)
    (length : Nat) : Char → ℚ :=
  fun c => h.remaining_freq guessed length c / sumAlpha (h.remaining_freq guessed length)

/-- The scoring step of `predict_letter_probabilities` (lines 82-94):
fewer than 5 matching words uses position-based scoring, otherwise
frequency-based scoring over the matching words. -/
def HangmanHMM.letter_scores (m : LengthModel) (masked : List Char)
    (guessed : Finset Char) : Char → ℚ :=
  let remaining := alphabetFinset \ guessed
  let matching := HangmanHMM.filter_matching_words m.words masked guessed
  if matching.length < 5 then
    HangmanHMM.position_based_scoring masked m.emission_probs remaining
  else
    HangmanHMM.frequency_based_scoring matching masked remaining

/-- `predict_letter_probabilities` (lines 70-101). -/
def HangmanHMM.predict_letter_probabilities (h : HangmanHMM) (masked : List Char)
    (guessed : Finset Char) : Char → ℚ :=
  match h.models.lookup masked.length with
  | none => h.fallback_probabilities guessed masked.length
  | some m =>
      let sc := HangmanHMM.letter_scores m masked guessed
      if sumAlpha sc = 0 then h.fallback_probabilities guessed masked.length
      else fun c => sc c / sumAlpha sc

/-- The per-position matching condition of claim C6, written from the
spec's words (refinement target for `filter_matching_words`). -/
def specMatches (w masked : List Char) (guessed : Finset Char) : Prop :=
  w.length = masked.length ∧
  ∀ i, i < masked.length →
    (masked.getD i ' ' ≠ '_' → w.getD i ' ' = masked.getD i ' ') ∧
    (masked.getD i ' ' = '_' → w.getD i ' ' ∉ guessed)

/-! ## Learning agent (`hangman_agent.py`, class `HangmanRLAgent`)

`self.q_table = defaultdict(lambda: defaultdict(float))` is modelled by a
total value function (absent entries read as `0.0`, exactly the
defaultdict behavior) together with the list of inner-dict keys per state
key, which is what `next_q_values` / `if next_q_values` /
`max(next_q_values.values())` observe.  Reading `q_table[k][a]` in Python
inserts `a` (value `0.0`) into the inner dict for `k`; `update_q_value`
performs such a read before computing `max_next_q`, and the embedding
reproduces that. -/

/-- `_get_state_key`'s result type: `(masked_word, tuple(sorted(guessed)),
lives_remaining)` (`hangman_agent.py` lines 29-35). -/
abbrev StateKey : Type := List Char × List Char × Int

/-- `_get_state_key` (lines 29-35). -/
def HangmanRLAgent.get_state_key (s : GameState) : StateKey :=
  (s.masked_word, s.guessed_letters.sort (· ≤ ·), s.lives_remaining)

/-- Observable content of `self.q_table`: the value of every entry
(`0.0` when absent) and the keys recorded in each inner dict. -/
structure QTable where
  val : StateKey → Char → ℚ
  recorded : StateKey → List Char

/-- `max(vs) if vs else 0`: Python's `max` on the (nonempty) value list,
and the `else 0` branch for an empty dict. -/
def dictMax : List ℚ → ℚ
  | [] => 0
  | v :: vs => vs.foldl max v

/-- `update_q_value` (lines 74-91).  The read `self.q_table[state_key][action]`
auto-vivifies the entry `(state_key, action)` with value `0.0` before
`next_q_values` is taken, so the recorded-keys map is updated first. -/
def HangmanRLAgent.update_q_value (lr gamma : ℚ) (q : QTable) (state_key : StateKey)
    (action : Char) (reward : ℚ) (next_state_key : StateKey) (done : Bool) : QTable :=
  let rec1 : StateKey → List Char := fun k =>
    if k = state_key then
      (if action ∈ q.recorded state_key then q.recorded state_key
       else q.recorded state_key ++ [action])
    else q.recorded k
  let current_q := q.val state_key action
  let max_next_q : ℚ :=
    if done then 0 else dictMax ((rec1 next_state_key).map (q.val next_state_key))
  let new_q := current_q + lr * (reward + gamma * max_next_q - current_q)
  { val := fun k b => if k = state_key ∧ b = action then new_q else q.val k b
    recorded := rec1 }

/-- The combined exploitation score of one candidate letter (lines 63-66):
`q_table[state_key][action] + hmm_probs.get(action, 0.001) * 10`.  Under
the absent-iff-zero convention for predictor output dicts (whose present
values are strictly positive), `get(action, 0.001)` is `0.001` exactly
when the stored value is `0`. -/
def HangmanRLAgent.combined_score (q : QTable) (state_key : StateKey)
    (hmm_probs : Char → ℚ) (action : Char) : ℚ :=
  q.val state_key action + (if hmm_probs action = 0 then 1/1000 else hmm_probs action) * 10

/-- The exploitation loop of `choose_action` (lines 60-70): running best
score and action, starting from `-inf`/`None` (modelled as `none`), taking
a strictly greater combined score. -/
def HangmanRLAgent.exploitBest (score : Char → ℚ) :
    List Char → Option (Char × ℚ) → Option (Char × ℚ)
  | [], best => best
  | a :: rest, best =>
      let c := score a
      let better := match best with
        | none => true
        | some (_, b) => decide (b < c)
      HangmanRLAgent.exploitBest score rest (if better then some (a, c) else best)

/-- Result of the exploitation branch of `choose_action`: a deterministic
letter, the `random.choice(available_actions)` fallback of line 72, or the
`None` returned for an empty action list (lines 39-40). -/
inductive ActionResult where
  | letter : Char → ActionResult
  | randomChoice : ActionResult
  | noAction : ActionResult
deriving DecidableEq

/-- The `training=False` path of `choose_action` (lines 37-72): guard for
empty `available_actions`, then the exploitation loop; line 72 returns the
best action if it is truthy (single-letter strings always are) and falls
back to a uniform random choice otherwise.  The predictor output
`hmm_probs` is passed in as a function (the call on lines 42-45 computes
it from the state). -/
def HangmanRLAgent.choose_action_exploit (q : QTable) (state : GameState)
    (hmm_probs : Char → ℚ) (available_actions : List Char) : ActionResult :=
  if available_actions.isEmpty then ActionResult.noAction
  else
    let state_key := HangmanRLAgent.get_state_key state
    match HangmanRLAgent.exploitBest
        (HangmanRLAgent.combined_score q state_key hmm_probs) available_actions none with
    | some (a, _) => ActionResult.letter a
    | none => ActionResult.randomChoice

/-! Concrete inputs used by the counterexamples below. -/

/-- A concrete state key. -/
def cexStateKey : StateKey := ([], [], 0)

/-- A Q-table whose every entry reads as `-1` (all combined exploitation
scores are then negative). -/
def cexQTable2 : QTable := ⟨fun _ _ => -1, fun _ => []⟩

/-- A predictor output covering no letters (every `get` hits the default). -/
def cexProbs2 : Char → ℚ := fun _ => 0

/-- A concrete game state. -/
def cexState2 : GameState := ⟨[], ∅, 0, 6, false, false, []⟩

/-- A Q-table recording a single action `'b'` with value `-3` at
`cexStateKey`. -/
def cexQTable7 : QTable :=
  ⟨fun k b => if k = cexStateKey ∧ b = 'b' then -3 else 0,
   fun k => if k = cexStateKey then ['b'] else []⟩

/-! ## Helper lemmas -/

theorem toLower_eq_self {c : Char} (h : isLowerAlpha c) : c.toLower = c := by
  obtain ⟨h1, _⟩ := h
  unfold Char.toLower
  have h97 : 97 ≤ c.toNat := h1
  have hcond : ¬ (c.toNat ≥ 65 ∧ c.toNat ≤ 90) := by omega
  simp [hcond]

theorem lowerAlpha_ne_placeholder {c : Char} (h : isLowerAlpha c) : c ≠ '_' := by
  rintro rfl
  exact absurd h (by decide)

namespace HangmanEnvironment

theorem step_guessed (env : HangmanEnvironment) (c : Char) :
    (env.step c).1.guessed_letters = insert c.toLower env.guessed_letters := by
  unfold step
  dsimp only
  split_ifs <;> rfl

theorem step_target (env : HangmanEnvironment) (c : Char) :
    (env.step c).1.target_word = env.target_word := by
  unfold step
  dsimp only
  split_ifs <;> rfl

theorem step_max_wrong (env : HangmanEnvironment) (c : Char) :
    (env.step c).1.max_wrong = env.max_wrong := by
  unfold step
  dsimp only
  split_ifs <;> rfl

theorem step_wrong_cases (env : HangmanEnvironment) (c : Char) :
    (env.step c).1.wrong_guesses = env.wrong_guesses ∨
      (env.step c).1.wrong_guesses = env.wrong_guesses + 1 := by
  unfold step
  dsimp only
  split_ifs <;> first | exact Or.inl rfl | exact Or.inr rfl

theorem step_game_over_mono (env : HangmanEnvironment) (c : Char)
    (h : env.game_over = true) : (env.step c).1.game_over = true := by
  unfold step
  dsimp only
  split_ifs <;> first | rfl | exact h

theorem step_of_repeated (env : HangmanEnvironment) (c : Char)
    (h : c.toLower ∈ env.guessed_letters) :
    (env.step c).1 = env ∧ (env.step c).2.1 = -2 ∧ (env.step c).2.2.1 = env.game_over := by
  unfold step
  dsimp only
  rw [if_pos h, Finset.insert_eq_self.mpr h]
  exact ⟨rfl, rfl, rfl⟩

end HangmanEnvironment

theorem map_mask_empty (l : List Char) :
    l.map (fun c => if c ∈ (∅ : Finset Char) then c else '_') = List.replicate l.length '_' := by
  induction l with
  | nil => rfl
  | cons x xs ih => simp [ih, List.replicate_succ]

theorem revealLetter_map (t : List Char) (g : Finset Char) (l : Char) :
    revealLetter t (t.map (fun c => if c ∈ g then c else '_')) l =
      t.map (fun c => if c ∈ insert l g then c else '_') := by
  induction t with
  | nil => rfl
  | cons x xs ih =>
      simp only [List.map_cons, revealLetter, ih]
      congr 1
      by_cases hx : x = l
      · subst hx
        simp [Finset.mem_insert]
      · simp [Finset.mem_insert, hx]

theorem map_mask_insert_of_not_mem (t : List Char) (g : Finset Char) (l : Char)
    (h : l ∉ t) :
    t.map (fun c => if c ∈ insert l g then c else '_') =
      t.map (fun c => if c ∈ g then c else '_') := by
  apply List.map_congr_left
  intro x hx
  have hxl : x ≠ l := by rintro rfl; exact h hx
  simp [Finset.mem_insert, hxl]

theorem inv_reset (mw : Nat) (w : List Char) : (HangmanEnvironment.reset mw w).Inv := by
  unfold HangmanEnvironment.reset HangmanEnvironment.Inv
  refine ⟨?_, fun _ => Or.inr rfl⟩
  exact (map_mask_empty _).symm

theorem inv_step (env : HangmanEnvironment) (c : Char) (h : env.Inv) :
    ((env.step c).1).Inv := by
  obtain ⟨hmask, hwrong⟩ := h
  by_cases h1 : c.toLower ∈ env.guessed_letters
  · have := (HangmanEnvironment.step_of_repeated env c h1).1
    rw [this]
    exact ⟨hmask, hwrong⟩
  · unfold HangmanEnvironment.step
    dsimp only
    rw [if_neg h1]
    by_cases h2 : c.toLower ∈ env.target_word
    · rw [if_pos h2]
      by_cases h3 : '_' ∈ revealLetter env.target_word env.masked_word c.toLower
      · rw [if_pos h3]
        dsimp only
        constructor
        · show revealLetter env.target_word env.masked_word c.toLower = _
          rw [hmask, revealLetter_map]
        · exact hwrong
      · rw [if_neg h3]
        dsimp only
        constructor
        · show revealLetter env.target_word env.masked_word c.toLower = _
          rw [hmask, revealLetter_map]
        · intro hfalse
          exact absurd hfalse (by simp)
    · rw [if_neg h2]
      by_cases h4 : env.wrong_guesses + 1 ≥ env.max_wrong
      · rw [if_pos h4]
        dsimp only
        constructor
        · show env.masked_word = _
          rw [hmask, map_mask_insert_of_not_mem _ _ _ h2]
        · intro hfalse
          exact absurd hfalse (by simp)
      · rw [if_neg h4]
        dsimp only
        constructor
        · show env.masked_word = _
          rw [hmask, map_mask_insert_of_not_mem _ _ _ h2]
        · intro _
          refine Or.inl ?_
          show env.wrong_guesses + 1 < env.max_wrong
          omega

namespace HangmanEnvironment

theorem runTrace_inv (ls : List Char) (env : HangmanEnvironment) (h : env.Inv) :
    (env.runTrace ls).Inv := by
  induction ls generalizing env with
  | nil => exact h
  | cons l ls ih => exact ih _ (inv_step env l h)

theorem runTrace_target (ls : List Char) (env : HangmanEnvironment) :
    (env.runTrace ls).target_word = env.target_word := by
  induction ls generalizing env with
  | nil => rfl
  | cons l ls ih => rw [runTrace, ih, step_target]

theorem runTrace_max_wrong (ls : List Char) (env : HangmanEnvironment) :
    (env.runTrace ls).max_wrong = env.max_wrong := by
  induction ls generalizing env with
  | nil => rfl
  | cons l ls ih => rw [runTrace, ih, step_max_wrong]

theorem runTrace_guessed (ls : List Char) (env : HangmanEnvironment) :
    (env.runTrace ls).guessed_letters =
      env.guessed_letters ∪ (ls.map Char.toLower).toFinset := by
  induction ls generalizing env with
  | nil => simp [runTrace]
  | cons l ls ih =>
      rw [runTrace, ih, step_guessed]
      simp [Finset.insert_union, Finset.union_insert]

theorem reset_inv (mw : Nat) (w : List Char) (ls : List Char) :
    ((HangmanEnvironment.reset mw w).runTrace ls).Inv :=
  runTrace_inv ls _ (inv_reset mw w)

end HangmanEnvironment

theorem step_masked_of_correct (env : HangmanEnvironment) (c : Char)
    (h1 : c.toLower ∉ env.guessed_letters) (h2 : c.toLower ∈ env.target_word) :
    (env.step c).1.masked_word = revealLetter env.target_word env.masked_word c.toLower := by
  unfold HangmanEnvironment.step
  dsimp only
  rw [if_neg h1, if_pos h2]
  split_ifs <;> rfl

theorem get_state_of_inv (env : HangmanEnvironment) (h : env.Inv) :
    (env.get_state.wrong_guesses : Int) + env.get_state.lives_remaining =
      (env.max_wrong : Int) ∧
    (env.get_state.game_over = false → 0 ≤ env.get_state.lives_remaining) := by
  constructor
  · show (env.wrong_guesses : Int) + ((env.max_wrong : Int) - (env.wrong_guesses : Int)) = _
    ring
  · intro hgo
    replace hgo : env.game_over = false := hgo
    show (0 : Int) ≤ (env.max_wrong : Int) - (env.wrong_guesses : Int)
    rcases h.2 hgo with hlt | hz <;> omega

/-- C5: every state reachable from `reset` by `step` calls satisfies
`wrong_guesses + lives_remaining = max_wrong` in the returned snapshot,
and a non-terminated state has `lives_remaining ≥ 0` (proved for all
traces, in particular those stepping only on non-terminated states). -/
theorem claimC5 (mw : Nat) (w ls : List Char) :
    ((((HangmanEnvironment.reset mw w).runTrace ls).get_state.wrong_guesses : Int) +
        ((HangmanEnvironment.reset mw w).runTrace ls).get_state.lives_remaining
      = (mw : Int)) ∧
    (((HangmanEnvironment.reset mw w).runTrace ls).get_state.game_over = false →
      0 ≤ ((HangmanEnvironment.reset mw w).runTrace ls).get_state.lives_remaining) := by
  have h := get_state_of_inv _ (HangmanEnvironment.reset_inv mw w ls)
  rwa [HangmanEnvironment.runTrace_max_wrong] at h

/-- C4: `step` on an already-guessed lowercase letter changes nothing but
the reward: the environment state is unchanged (hence so is every
component of the returned snapshot) and the returned done flag is the
current `game_over`; consequently a second guess of the same letter
leaves the mask and the remaining lives exactly as after the first. -/
theorem claimC4 (env : HangmanEnvironment) (c : Char)
    (h1 : isLowerAlpha c) (h2 : c ∈ env.guessed_letters) :
    (env.step c).1 = env ∧ (env.step c).2.2.1 = env.game_over ∧
    (∀ l : Char,
      (((env.step l).1).step l).1.masked_word = (env.step l).1.masked_word ∧
      (((env.step l).1).step l).1.get_state.lives_remaining =
        (env.step l).1.get_state.lives_remaining) := by
  have hmem : c.toLower ∈ env.guessed_letters := by rwa [toLower_eq_self h1]
  obtain ⟨hstate, -, hdone⟩ := HangmanEnvironment.step_of_repeated env c hmem
  refine ⟨hstate, hdone, fun l => ?_⟩
  have hl : l.toLower ∈ ((env.step l).1).guessed_letters := by
    rw [HangmanEnvironment.step_guessed]
    exact Finset.mem_insert_self _ _
  rw [(HangmanEnvironment.step_of_repeated _ l hl).1]
  exact ⟨rfl, rfl⟩

/-- C4 witness: a concrete environment in which `'a'` has been guessed. -/
theorem claimC4_witness :
    (isLowerAlpha 'a' ∧
      'a' ∈ (⟨6, ['c','a','t'], ['_','a','_'], {'a'}, 0, false, false⟩ :
        HangmanEnvironment).guessed_letters) ∧
    ((⟨6, ['c','a','t'], ['_','a','_'], {'a'}, 0, false, false⟩ :
        HangmanEnvironment).step 'a').1 =
      (⟨6, ['c','a','t'], ['_','a','_'], {'a'}, 0, false, false⟩ : HangmanEnvironment) ∧
    ((⟨6, ['c','a','t'], ['_','a','_'], {'a'}, 0, false, false⟩ :
        HangmanEnvironment).step 'a').2.2.1 = false ∧
    (∀ l : Char,
      ((((⟨6, ['c','a','t'], ['_','a','_'], {'a'}, 0, false, false⟩ :
          HangmanEnvironment).step l).1).step l).1.masked_word =
        ((⟨6, ['c','a','t'], ['_','a','_'], {'a'}, 0, false, false⟩ :
          HangmanEnvironment).step l).1.masked_word ∧
      ((((⟨6, ['c','a','t'], ['_','a','_'], {'a'}, 0, false, false⟩ :
          HangmanEnvironment).step l).1).step l).1.get_state.lives_remaining =
        ((⟨6, ['c','a','t'], ['_','a','_'], {'a'}, 0, false, false⟩ :
          HangmanEnvironment).step l).1.get_state.lives_remaining) :=
  ⟨⟨by decide, by decide⟩, claimC4 _ 'a' (by decide) (by decide)⟩

theorem steppedLive_wrong_le (ls : List Char) (env : HangmanEnvironment)
    (hinv : env.Inv) (hmw : 1 ≤ env.max_wrong) (hw : env.wrong_guesses ≤ env.max_wrong)
    (hlive : env.SteppedLive ls) :
    (env.runTrace ls).wrong_guesses ≤ env.max_wrong := by
  induction ls generalizing env with
  | nil => exact hw
  | cons l ls ih =>
      obtain ⟨hgo, hrest⟩ := hlive
      have hmw' : 1 ≤ ((env.step l).1).max_wrong := by
        rwa [HangmanEnvironment.step_max_wrong]
      have hw' : ((env.step l).1).wrong_guesses ≤ ((env.step l).1).max_wrong := by
        rw [HangmanEnvironment.step_max_wrong]
        rcases HangmanEnvironment.step_wrong_cases env l with hc | hc <;>
          rcases hinv.2 hgo with hlt | hz <;> omega
      have := ih ((env.step l).1) (inv_step env l hinv) hmw' hw' hrest
      rwa [HangmanEnvironment.step_max_wrong] at this

/-- C9: along any trace of `step` calls from `reset` (with `max_wrong ≥ 1`
so that a `max_wrong`-th wrong guess exists), as soon as the wrong-guess
count has reached `max_wrong` the game is already over — in particular
this holds right after the step performing the `max_wrong`-th wrong
guess; and an episode (steps taken only on non-terminated states) never
accumulates more than `max_wrong` wrong guesses.  Both parts hold for
arbitrary letter sequences, in particular for 26 distinct non-winning
letters. -/
theorem claimC9 (mw : Nat) (w ls : List Char) (hmw : 1 ≤ mw) :
    (mw ≤ ((HangmanEnvironment.reset mw w).runTrace ls).wrong_guesses →
      ((HangmanEnvironment.reset mw w).runTrace ls).game_over = true) ∧
    ((HangmanEnvironment.reset mw w).SteppedLive ls →
      ((HangmanEnvironment.reset mw w).runTrace ls).wrong_guesses ≤ mw) := by
  constructor
  · intro hge
    by_contra hno
    have hgo : ((HangmanEnvironment.reset mw w).runTrace ls).game_over = false := by
      revert hno
      cases ((HangmanEnvironment.reset mw w).runTrace ls).game_over <;> simp
    have h2 := (HangmanEnvironment.reset_inv mw w ls).2 hgo
    rw [HangmanEnvironment.runTrace_max_wrong] at h2
    have hr : (HangmanEnvironment.reset mw w).max_wrong = mw := rfl
    rcases h2 with hlt | hz <;> omega
  · intro hlive
    have := steppedLive_wrong_le ls (HangmanEnvironment.reset mw w)
      (inv_reset mw w) hmw (by exact Nat.zero_le _) hlive
    exact this

/-- C9 witness: `max_wrong = 1`, target `"a"`, one wrong guess `'b'`. -/
theorem claimC9_witness :
    1 ≤ 1 ∧
    ((1 ≤ ((HangmanEnvironment.reset 1 ['a']).runTrace ['b']).wrong_guesses →
        ((HangmanEnvironment.reset 1 ['a']).runTrace ['b']).game_over = true) ∧
      ((HangmanEnvironment.reset 1 ['a']).SteppedLive ['b'] →
        ((HangmanEnvironment.reset 1 ['a']).runTrace ['b']).wrong_guesses ≤ 1)) :=
  ⟨by decide, claimC9 1 ['a'] ['b'] (by decide)⟩

/-- C10: on every state reachable from `reset` by lowercase-letter steps,
the mask has the target's length, each position is either the placeholder
or the target's letter, and a position is revealed exactly when the
target's letter there has been guessed. -/
theorem claimC10 (mw : Nat) (w ls : List Char) (hls : ∀ l ∈ ls, isLowerAlpha l) :
    ((HangmanEnvironment.reset mw w).runTrace ls).masked_word.length =
      ((HangmanEnvironment.reset mw w).runTrace ls).target_word.length ∧
    ∀ i, i < ((HangmanEnvironment.reset mw w).runTrace ls).target_word.length →
      (((HangmanEnvironment.reset mw w).runTrace ls).masked_word.getD i ' ' = '_' ∨
        ((HangmanEnvironment.reset mw w).runTrace ls).masked_word.getD i ' ' =
          ((HangmanEnvironment.reset mw w).runTrace ls).target_word.getD i ' ') ∧
      (((HangmanEnvironment.reset mw w).runTrace ls).masked_word.getD i ' ' ≠ '_' ↔
        ((HangmanEnvironment.reset mw w).runTrace ls).target_word.getD i ' ' ∈
          ((HangmanEnvironment.reset mw w).runTrace ls).guessed_letters) := by
  have hmask := (HangmanEnvironment.reset_inv mw w ls).1
  have hg : ((HangmanEnvironment.reset mw w).runTrace ls).guessed_letters =
      (ls.map Char.toLower).toFinset := by
    rw [HangmanEnvironment.runTrace_guessed]
    show (∅ : Finset Char) ∪ _ = _
    exact Finset.empty_union _
  have hglower : ∀ x ∈ ((HangmanEnvironment.reset mw w).runTrace ls).guessed_letters,
      isLowerAlpha x := by
    intro x hx
    rw [hg, List.mem_toFinset, List.mem_map] at hx
    obtain ⟨l, hl, rfl⟩ := hx
    rw [toLower_eq_self (hls l hl)]
    exact hls l hl
  constructor
  · rw [hmask, List.length_map]
  · intro i hi
    have hlen : i < ((HangmanEnvironment.reset mw w).runTrace ls).masked_word.length := by
      rw [hmask, List.length_map]; exact hi
    have hgetm : ((HangmanEnvironment.reset mw w).runTrace ls).masked_word.getD i ' ' =
        (if ((HangmanEnvironment.reset mw w).runTrace ls).target_word.getD i ' ' ∈
            ((HangmanEnvironment.reset mw w).runTrace ls).guessed_letters then
          ((HangmanEnvironment.reset mw w).runTrace ls).target_word.getD i ' '
        else '_') := by
      rw [List.getD_eq_getElem _ _ hlen, List.getD_eq_getElem _ _ hi]
      have : ((HangmanEnvironment.reset mw w).runTrace ls).masked_word =
          ((HangmanEnvironment.reset mw w).runTrace ls).target_word.map
            (fun c => if c ∈ ((HangmanEnvironment.reset mw w).runTrace ls).guessed_letters
              then c else '_') := hmask
      simp only [this, List.getElem_map]
    rw [hgetm]
    by_cases hmem : ((HangmanEnvironment.reset mw w).runTrace ls).target_word.getD i ' ' ∈
        ((HangmanEnvironment.reset mw w).runTrace ls).guessed_letters
    · rw [if_pos hmem]
      have hne := lowerAlpha_ne_placeholder (hglower _ hmem)
      exact ⟨Or.inr rfl, iff_of_true hne hmem⟩
    · rw [if_neg hmem]
      exact ⟨Or.inl rfl, iff_of_false (fun h => h rfl) hmem⟩

/-- C10 witness: a concrete run guessing `'a'` against `"cat"`. -/
theorem claimC10_witness :
    (∀ l ∈ ['a'], isLowerAlpha l) ∧
    (((HangmanEnvironment.reset 6 ['c','a','t']).runTrace ['a']).masked_word.length =
        ((HangmanEnvironment.reset 6 ['c','a','t']).runTrace ['a']).target_word.length ∧
      ∀ i, i < ((HangmanEnvironment.reset 6 ['c','a','t']).runTrace ['a']).target_word.length →
        (((HangmanEnvironment.reset 6 ['c','a','t']).runTrace ['a']).masked_word.getD i ' ' = '_' ∨
          ((HangmanEnvironment.reset 6 ['c','a','t']).runTrace ['a']).masked_word.getD i ' ' =
            ((HangmanEnvironment.reset 6 ['c','a','t']).runTrace ['a']).target_word.getD i ' ') ∧
        (((HangmanEnvironment.reset 6 ['c','a','t']).runTrace ['a']).masked_word.getD i ' ' ≠ '_' ↔
          ((HangmanEnvironment.reset 6 ['c','a','t']).runTrace ['a']).target_word.getD i ' ' ∈
            ((HangmanEnvironment.reset 6 ['c','a','t']).runTrace ['a']).guessed_letters)) :=
  ⟨by decide, claimC10 6 ['c','a','t'] ['a'] (by decide)⟩

/-- C3 (amended): the reward of `step` on a non-terminated state for a
single lowercase letter is: `-2` for a repeated guess; `10·k` for a
letter occurring `k ≥ 1` times in the target, plus `100` when the guess
removes the last placeholder; otherwise `-5`, plus `-50` when the guess
raises the wrong-guess count to **at least** `max_wrong` (the source
tests `>=`; this coincides with "exactly `max_wrong`" whenever
`max_wrong ≥ 1`, but not for `max_wrong = 0`). -/
theorem claimC3 (env : HangmanEnvironment) (c : Char)
    (_hgo : env.game_over = false) (hc : isLowerAlpha c) :
    (env.step c).2.1 =
      if c ∈ env.guessed_letters then -2
      else if 0 < env.target_word.count c then
        10 * (env.target_word.count c : Int) +
          (if '_' ∈ (env.step c).1.masked_word then 0 else 100)
      else -5 + (if env.max_wrong ≤ env.wrong_guesses + 1 then -50 else 0) := by
  have hlow := toLower_eq_self hc
  by_cases h1 : c ∈ env.guessed_letters
  · rw [if_pos h1]
    exact (HangmanEnvironment.step_of_repeated env c (by rwa [hlow])).2.1
  · rw [if_neg h1]
    have h1' : c.toLower ∉ env.guessed_letters := by rwa [hlow]
    by_cases h2 : c ∈ env.target_word
    · have hcount : 0 < env.target_word.count c := List.count_pos_iff.mpr h2
      rw [if_pos hcount]
      rw [step_masked_of_correct env c h1' (by rwa [hlow]), hlow]
      unfold HangmanEnvironment.step
      dsimp only
      rw [hlow, if_neg h1, if_pos h2]
      by_cases h3 : '_' ∈ revealLetter env.target_word env.masked_word c
      · rw [if_pos h3, if_pos h3]
        dsimp only
        ring
      · rw [if_neg h3, if_neg h3]
    · have hcount : ¬ 0 < env.target_word.count c := by
        simp [List.count_eq_zero_of_not_mem h2]
      rw [if_neg hcount]
      unfold HangmanEnvironment.step
      dsimp only
      rw [hlow, if_neg h1, if_neg h2]
      by_cases h4 : env.wrong_guesses + 1 ≥ env.max_wrong
      · rw [if_pos h4, if_pos h4]
        dsimp only
        norm_num
      · rw [if_neg h4, if_neg h4]
        dsimp only
        norm_num

/-- C3 witness: guessing `'a'` against `"cat"` on a fresh environment. -/
theorem claimC3_witness :
    ((HangmanEnvironment.reset 6 ['c','a','t']).game_over = false ∧
      isLowerAlpha 'a') ∧
    ((HangmanEnvironment.reset 6 ['c','a','t']).step 'a').2.1 =
      (if 'a' ∈ (HangmanEnvironment.reset 6 ['c','a','t']).guessed_letters then -2
      else if 0 < (HangmanEnvironment.reset 6 ['c','a','t']).target_word.count 'a' then
        10 * ((HangmanEnvironment.reset 6 ['c','a','t']).target_word.count 'a' : Int) +
          (if '_' ∈ ((HangmanEnvironment.reset 6 ['c','a','t']).step 'a').1.masked_word
            then 0 else 100)
      else -5 + (if (HangmanEnvironment.reset 6 ['c','a','t']).max_wrong ≤
          (HangmanEnvironment.reset 6 ['c','a','t']).wrong_guesses + 1 then -50 else 0)) :=
  ⟨⟨by decide, by decide⟩, claimC3 _ 'a' (by decide) (by decide)⟩

/-- C3 counterexample: with `max_wrong = 0`, a fresh (non-terminated)
environment and the absent letter `'b'`, the source gives reward
`-5 - 50 = -55` (the wrong-guess count `1` reaches `max_wrong = 0` by the
`>=` test), while the claim's "raises the wrong-guess count **to**
`max_wrong`" predicts `-5` since `1 ≠ 0`. -/
theorem claimC3_cex :
    (HangmanEnvironment.reset 0 ['a']).game_over = false ∧
    isLowerAlpha 'b' ∧
    'b' ∉ (HangmanEnvironment.reset 0 ['a']).guessed_letters ∧
    (HangmanEnvironment.reset 0 ['a']).target_word.count 'b' = 0 ∧
    (HangmanEnvironment.reset 0 ['a']).wrong_guesses + 1 ≠
      (HangmanEnvironment.reset 0 ['a']).max_wrong ∧
    ((HangmanEnvironment.reset 0 ['a']).step 'b').2.1 ≠
      -5 + (if (HangmanEnvironment.reset 0 ['a']).wrong_guesses + 1 =
        (HangmanEnvironment.reset 0 ['a']).max_wrong then -50 else 0) := by
  refine ⟨by decide, by decide, by decide, by decide, by decide, ?_⟩
  decide

theorem matchesMask_iff (w : List Char) (masked : List Char) (g : Finset Char) :
    HangmanHMM.matchesMask w masked g = true ↔ specMatches w masked g := by
  induction w generalizing masked with
  | nil =>
      cases masked with
      | nil => simp [HangmanHMM.matchesMask, specMatches]
      | cons m ms => simp [HangmanHMM.matchesMask, specMatches]
  | cons c cs ih =>
      cases masked with
      | nil => simp [HangmanHMM.matchesMask, specMatches]
      | cons m ms =>
          have hhead : ((if m = '_' then decide (c ∉ g) else decide (c = m)) = true) ↔
              ((m ≠ '_' → c = m) ∧ (m = '_' → c ∉ g)) := by
            by_cases hm : m = '_'
            · subst hm
              simp
            · simp [hm]
          constructor
          · intro h
            simp only [HangmanHMM.matchesMask, Bool.and_eq_true] at h
            obtain ⟨h1, h2⟩ := h
            obtain ⟨hlen, htail⟩ := (ih ms).mp h2
            refine ⟨by simpa using hlen, ?_⟩
            intro i hi
            cases i with
            | zero =>
                simp only [List.getD_cons_zero]
                exact hhead.mp h1
            | succ j =>
                simp only [List.getD_cons_succ]
                exact htail j (by simpa using hi)
          · rintro ⟨hlen, hall⟩
            simp only [HangmanHMM.matchesMask, Bool.and_eq_true]
            constructor
            · apply hhead.mpr
              have h0 := hall 0 (by simp)
              simpa using h0
            · apply (ih ms).mpr
              refine ⟨by simpa using hlen, ?_⟩
              intro i hi
              have hs := hall (i + 1) (by simpa using Nat.succ_lt_succ hi)
              simpa using hs

/-- C6: `_filter_matching_words` keeps exactly the words of the same
length as the mask that agree with every revealed position and avoid
already-guessed letters at every unrevealed position. -/
theorem claimC6 (ws : List (List Char)) (masked : List Char) (g : Finset Char)
    (w : List Char) :
    w ∈ HangmanHMM.filter_matching_words ws masked g ↔
      w ∈ ws ∧ w.length = masked.length ∧
        ∀ i, i < masked.length →
          (masked.getD i ' ' ≠ '_' → w.getD i ' ' = masked.getD i ' ') ∧
          (masked.getD i ' ' = '_' → w.getD i ' ' ∉ g) := by
  unfold HangmanHMM.filter_matching_words
  rw [List.mem_filter, matchesMask_iff]
  exact Iff.rfl

theorem sumAlpha_eq_finsetSum (f : Char → ℚ) : sumAlpha f = alphabetFinset.sum f := by
  rw [alphabetFinset, List.sum_toFinset f (by decide : alphabet.Nodup)]
  rfl

theorem lookup_mem {β : Type _} (a : Nat) (b : β) (l : List (Nat × β))
    (h : List.lookup a l = some b) : (a, b) ∈ l := by
  induction l with
  | nil => simp [List.lookup] at h
  | cons p ps ih =>
      obtain ⟨k, v⟩ := p
      by_cases hk : a = k
      · subst hk
        have hkv : List.lookup a ((a, v) :: ps) = some v := by
          simp [List.lookup]
        rw [hkv] at h
        obtain rfl : v = b := by simpa using h
        exact List.mem_cons_self _ _
      · have hskip : List.lookup a ((k, v) :: ps) = List.lookup a ps := by
          simp [List.lookup, beq_false_of_ne hk]
        rw [hskip] at h
        exact List.mem_cons_of_mem _ (ih h)

theorem calculate_frequencies_nonneg (ws : List (List Char)) (c : Char) :
    0 ≤ HangmanHMM.calculate_frequencies ws c := by
  unfold HangmanHMM.calculate_frequencies
  positivity

theorem train_freq_nonneg (corpus : List (List Char)) (p : Nat × (Char → ℚ))
    (hp : p ∈ (HangmanHMM.train corpus).letter_frequencies) (c : Char) : 0 ≤ p.2 c := by
  unfold HangmanHMM.train at hp
  dsimp only at hp
  rw [List.mem_map] at hp
  obtain ⟨n, -, rfl⟩ := hp
  exact calculate_frequencies_nonneg _ c

theorem fallback_freq_nonneg (corpus : List (List Char)) (n : Nat) (c : Char) :
    0 ≤ (HangmanHMM.train corpus).fallback_freq n c := by
  unfold HangmanHMM.fallback_freq
  cases hlk : List.lookup n (HangmanHMM.train corpus).letter_frequencies with
  | some f =>
      exact train_freq_nonneg corpus (n, f) (lookup_mem n f _ hlk) c
  | none =>
      dsimp only
      apply div_nonneg
      · apply List.sum_nonneg
        intro x hx
        rw [List.mem_map] at hx
        obtain ⟨p, hp, rfl⟩ := hx
        exact train_freq_nonneg corpus p hp c
      · rw [sumAlpha_eq_finsetSum]
        apply Finset.sum_nonneg
        intro d _
        apply List.sum_nonneg
        intro x hx
        rw [List.mem_map] at hx
        obtain ⟨p, hp, rfl⟩ := hx
        exact train_freq_nonneg corpus p hp d

theorem remaining_freq_zero_of_not_mem (h : HangmanHMM) (guessed : Finset Char) (n : Nat)
    (c : Char) (hc : c ∉ alphabetFinset \ guessed) : h.remaining_freq guessed n c = 0 := by
  unfold HangmanHMM.remaining_freq
  rw [if_neg hc]

theorem remaining_freq_pos_of_mem (corpus : List (List Char)) (guessed : Finset Char)
    (n : Nat) (c : Char) (hc : c ∈ alphabetFinset \ guessed) :
    0 < (HangmanHMM.train corpus).remaining_freq guessed n c := by
  unfold HangmanHMM.remaining_freq
  rw [if_pos hc]
  by_cases hz : (HangmanHMM.train corpus).fallback_freq n c = 0
  · rw [if_pos hz]
    norm_num
  · rw [if_neg hz]
    exact lt_of_le_of_ne (fallback_freq_nonneg corpus n c) (Ne.symm hz)

theorem remaining_freq_nonneg (corpus : List (List Char)) (guessed : Finset Char)
    (n : Nat) (c : Char) : 0 ≤ (HangmanHMM.train corpus).remaining_freq guessed n c := by
  by_cases hc : c ∈ alphabetFinset \ guessed
  · exact le_of_lt (remaining_freq_pos_of_mem corpus guessed n c hc)
  · rw [remaining_freq_zero_of_not_mem _ _ _ _ hc]

theorem remaining_freq_sum_pos (corpus : List (List Char)) (guessed : Finset Char)
    (n : Nat) (hne : (alphabetFinset \ guessed).Nonempty) :
    0 < sumAlpha ((HangmanHMM.train corpus).remaining_freq guessed n) := by
  obtain ⟨c0, hc0⟩ := hne
  rw [sumAlpha_eq_finsetSum]
  have hc0' : c0 ∈ alphabetFinset := Finset.sdiff_subset hc0
  calc 0 < (HangmanHMM.train corpus).remaining_freq guessed n c0 :=
        remaining_freq_pos_of_mem corpus guessed n c0 hc0
    _ ≤ alphabetFinset.sum ((HangmanHMM.train corpus).remaining_freq guessed n) :=
        Finset.single_le_sum (fun d _ => remaining_freq_nonneg corpus guessed n d) hc0'

theorem fallback_props (corpus : List (List Char)) (guessed : Finset Char) (n : Nat)
    (hne : (alphabetFinset \ guessed).Nonempty) :
    (∀ c ∈ alphabetFinset \ guessed,
        0 < (HangmanHMM.train corpus).fallback_probabilities guessed n c) ∧
    sumAlpha ((HangmanHMM.train corpus).fallback_probabilities guessed n) = 1 ∧
    (∀ c, c ∉ alphabetFinset \ guessed →
        (HangmanHMM.train corpus).fallback_probabilities guessed n c = 0) := by
  have hT := remaining_freq_sum_pos corpus guessed n hne
  refine ⟨?_, ?_, ?_⟩
  · intro c hc
    unfold HangmanHMM.fallback_probabilities
    exact div_pos (remaining_freq_pos_of_mem corpus guessed n c hc) hT
  · unfold HangmanHMM.fallback_probabilities
    rw [sumAlpha_eq_finsetSum]
    rw [← Finset.sum_div]
    rw [← sumAlpha_eq_finsetSum]
    exact div_self (ne_of_gt hT)
  · intro c hc
    unfold HangmanHMM.fallback_probabilities
    rw [remaining_freq_zero_of_not_mem _ _ _ _ hc, zero_div]

theorem letter_scores_zero_of_not_mem (m : LengthModel) (masked : List Char)
    (guessed : Finset Char) (c : Char) (hc : c ∉ alphabetFinset \ guessed) :
    HangmanHMM.letter_scores m masked guessed c = 0 := by
  unfold HangmanHMM.letter_scores
  split_ifs with hlt
  · unfold HangmanHMM.position_based_scoring
    rw [if_neg hc]
  · unfold HangmanHMM.frequency_based_scoring
    rw [if_neg hc]

/-- C1 (amended): for every trained predictor, masked word, and guessed
set that is a proper subset of the alphabet, the returned distribution's
key set is a **subset** of the alphabet minus the guessed set (it can be
strictly smaller: only letters with nonzero score get a key) and its
values sum to exactly 1. -/
theorem claimC1 (corpus : List (List Char)) (masked : List Char) (guessed : Finset Char)
    (h : guessed ⊂ alphabetFinset) :
    keySet ((HangmanHMM.train corpus).predict_letter_probabilities masked guessed) ⊆
      alphabetFinset \ guessed ∧
    sumAlpha ((HangmanHMM.train corpus).predict_letter_probabilities masked guessed) = 1 := by
  have hne : (alphabetFinset \ guessed).Nonempty := by
    rw [Finset.sdiff_nonempty]
    exact (Finset.ssubset_def.mp h).2
  obtain ⟨hpos, hsum, hzero⟩ := fallback_props corpus guessed masked.length hne
  unfold HangmanHMM.predict_letter_probabilities
  cases hlk : List.lookup masked.length (HangmanHMM.train corpus).models with
  | none =>
      dsimp only
      constructor
      · intro c hc
        rw [keySet, Finset.mem_filter] at hc
        by_contra hnc
        exact hc.2 (hzero c hnc)
      · exact hsum
  | some m =>
      dsimp only
      by_cases ht : sumAlpha (HangmanHMM.letter_scores m masked guessed) = 0
      · rw [if_pos ht]
        constructor
        · intro c hc
          rw [keySet, Finset.mem_filter] at hc
          by_contra hnc
          exact hc.2 (hzero c hnc)
        · exact hsum
      · rw [if_neg ht]
        constructor
        · intro c hc
          rw [keySet, Finset.mem_filter] at hc
          by_contra hnc
          refine hc.2 ?_
          show HangmanHMM.letter_scores m masked guessed c /
            sumAlpha (HangmanHMM.letter_scores m masked guessed) = 0
          rw [letter_scores_zero_of_not_mem m masked guessed c hnc, zero_div]
        · show sumAlpha (fun c => HangmanHMM.letter_scores m masked guessed c /
            sumAlpha (HangmanHMM.letter_scores m masked guessed)) = 1
          rw [sumAlpha_eq_finsetSum, ← Finset.sum_div, ← sumAlpha_eq_finsetSum]
          exact div_self ht

/-- C1 witness: the predictor trained on the one-word corpus `["a"]`,
mask `"_"`, nothing guessed. -/
theorem claimC1_witness :
    ((∅ : Finset Char) ⊂ alphabetFinset) ∧
    (keySet ((HangmanHMM.train [['a']]).predict_letter_probabilities ['_'] ∅) ⊆
        alphabetFinset \ ∅ ∧
      sumAlpha ((HangmanHMM.train [['a']]).predict_letter_probabilities ['_'] ∅) = 1) :=
  ⟨by decide, claimC1 [['a']] ['_'] ∅ (by decide)⟩

/-- C8 (amended): `predict_letter_probabilities` returns the fallback
distribution whenever no length model exists or the computed scores total
zero; and — provided at least one alphabet letter is unguessed — the
fallback gives every unguessed letter a strictly positive probability
(with letters absent from the frequency table getting the prior `0.01`
before renormalization) and sums to exactly 1.  (With every letter
guessed the fallback is the empty dict, whose sum is 0, not 1.) -/
theorem claimC8 (corpus : List (List Char)) (masked : List Char) (guessed : Finset Char)
    (hne : (alphabetFinset \ guessed).Nonempty) :
    (List.lookup masked.length (HangmanHMM.train corpus).models = none →
      (HangmanHMM.train corpus).predict_letter_probabilities masked guessed =
        (HangmanHMM.train corpus).fallback_probabilities guessed masked.length) ∧
    (∀ m, List.lookup masked.length (HangmanHMM.train corpus).models = some m →
      sumAlpha (HangmanHMM.letter_scores m masked guessed) = 0 →
      (HangmanHMM.train corpus).predict_letter_probabilities masked guessed =
        (HangmanHMM.train corpus).fallback_probabilities guessed masked.length) ∧
    (∀ c ∈ alphabetFinset \ guessed,
      0 < (HangmanHMM.train corpus).fallback_probabilities guessed masked.length c) ∧
    (∀ c ∈ alphabetFinset \ guessed,
      (HangmanHMM.train corpus).fallback_freq masked.length c = 0 →
      (HangmanHMM.train corpus).fallback_probabilities guessed masked.length c =
        (1/100) /
          sumAlpha ((HangmanHMM.train corpus).remaining_freq guessed masked.length)) ∧
    sumAlpha ((HangmanHMM.train corpus).fallback_probabilities guessed masked.length)
      = 1 := by
  obtain ⟨hpos, hsum, hzero⟩ := fallback_props corpus guessed masked.length hne
  refine ⟨?_, ?_, hpos, ?_, hsum⟩
  · intro hlk
    unfold HangmanHMM.predict_letter_probabilities
    rw [hlk]
  · intro m hlk ht
    unfold HangmanHMM.predict_letter_probabilities
    rw [hlk]
    dsimp only
    rw [if_pos ht]
  · intro c hc hz
    unfold HangmanHMM.fallback_probabilities
    rw [show (HangmanHMM.train corpus).remaining_freq guessed masked.length c = 1/100 from by
      unfold HangmanHMM.remaining_freq
      rw [if_pos hc, if_pos hz]]

/-- C8 witness: untrained predictor (empty corpus), mask `"_"`, nothing
guessed. -/
theorem claimC8_witness :
    (alphabetFinset \ (∅ : Finset Char)).Nonempty ∧
    ((List.lookup (['_'] : List Char).length (HangmanHMM.train []).models = none →
      (HangmanHMM.train []).predict_letter_probabilities ['_'] ∅ =
        (HangmanHMM.train []).fallback_probabilities ∅ (['_'] : List Char).length) ∧
    (∀ m, List.lookup (['_'] : List Char).length (HangmanHMM.train []).models = some m →
      sumAlpha (HangmanHMM.letter_scores m ['_'] ∅) = 0 →
      (HangmanHMM.train []).predict_letter_probabilities ['_'] ∅ =
        (HangmanHMM.train []).fallback_probabilities ∅ (['_'] : List Char).length) ∧
    (∀ c ∈ alphabetFinset \ (∅ : Finset Char),
      0 < (HangmanHMM.train []).fallback_probabilities ∅ (['_'] : List Char).length c) ∧
    (∀ c ∈ alphabetFinset \ (∅ : Finset Char),
      (HangmanHMM.train []).fallback_freq (['_'] : List Char).length c = 0 →
      (HangmanHMM.train []).fallback_probabilities ∅ (['_'] : List Char).length c =
        (1/100) /
          sumAlpha ((HangmanHMM.train []).remaining_freq ∅ (['_'] : List Char).length)) ∧
    sumAlpha ((HangmanHMM.train []).fallback_probabilities ∅ (['_'] : List Char).length)
      = 1) :=
  ⟨by decide, claimC8 [] ['_'] ∅ (by decide)⟩

theorem train_length_model_emission_nonneg (ws : List (List Char)) (pos : Nat) (c : Char) :
    0 ≤ (HangmanHMM.train_length_model ws).emission_probs pos c := by
  unfold HangmanHMM.train_length_model
  positivity

theorem letter_scores_train_nonneg (ws : List (List Char)) (masked : List Char)
    (guessed : Finset Char) (c : Char) :
    0 ≤ HangmanHMM.letter_scores (HangmanHMM.train_length_model ws) masked guessed c := by
  unfold HangmanHMM.letter_scores
  split_ifs
  · unfold HangmanHMM.position_based_scoring
    split_ifs
    · apply List.sum_nonneg
      intro x hx
      rw [List.mem_map] at hx
      obtain ⟨pos, -, rfl⟩ := hx
      exact train_length_model_emission_nonneg ws pos c
    · exact le_refl 0
  · unfold HangmanHMM.frequency_based_scoring
    split_ifs
    · positivity
    · exact le_refl 0

/-- C1 counterexample: with the corpus `["a"]`, mask `"_"` and nothing
guessed (a proper subset of the alphabet), the returned dict is
`{'a': 1.0}` — the letter `'b'` is an unguessed alphabet letter with no
key, so the key set is strictly smaller than alphabet minus guessed. -/
theorem claimC1_cex :
    'b' ∈ alphabetFinset \ (∅ : Finset Char) ∧
    'b' ∉ keySet ((HangmanHMM.train [['a']]).predict_letter_probabilities ['_'] ∅) := by
  have hm : List.lookup (['_'] : List Char).length (HangmanHMM.train [['a']]).models =
      some (HangmanHMM.train_length_model [['a']]) := rfl
  have ha : HangmanHMM.letter_scores (HangmanHMM.train_length_model [['a']]) ['_'] ∅ 'a'
      = 1 := by
    unfold HangmanHMM.letter_scores HangmanHMM.position_based_scoring
      HangmanHMM.train_length_model unrevealedPositions HangmanHMM.filter_matching_words
      HangmanHMM.matchesMask
    norm_num +decide [List.range_succ, List.range_zero, List.filter_cons, List.filter_nil,
      List.countP_cons, List.countP_nil]
  have hb : HangmanHMM.letter_scores (HangmanHMM.train_length_model [['a']]) ['_'] ∅ 'b'
      = 0 := by
    unfold HangmanHMM.letter_scores HangmanHMM.position_based_scoring
      HangmanHMM.train_length_model unrevealedPositions HangmanHMM.filter_matching_words
      HangmanHMM.matchesMask
    norm_num +decide [List.range_succ, List.range_zero, List.filter_cons, List.filter_nil,
      List.countP_cons, List.countP_nil]
  have htot : 0 < sumAlpha (HangmanHMM.letter_scores
      (HangmanHMM.train_length_model [['a']]) ['_'] ∅) := by
    rw [sumAlpha_eq_finsetSum]
    calc (0 : ℚ) < 1 := by norm_num
      _ = HangmanHMM.letter_scores (HangmanHMM.train_length_model [['a']]) ['_'] ∅ 'a' :=
          ha.symm
      _ ≤ alphabetFinset.sum (HangmanHMM.letter_scores
            (HangmanHMM.train_length_model [['a']]) ['_'] ∅) :=
          Finset.single_le_sum
            (fun d _ => letter_scores_train_nonneg [['a']] ['_'] ∅ d) (by decide)
  refine ⟨by decide, ?_⟩
  rw [keySet, Finset.mem_filter]
  rintro ⟨-, hne⟩
  apply hne
  show (HangmanHMM.train [['a']]).predict_letter_probabilities ['_'] ∅ 'b' = 0
  unfold HangmanHMM.predict_letter_probabilities
  rw [hm]
  dsimp only
  rw [if_neg (ne_of_gt htot)]
  rw [hb, zero_div]

/-- C8 counterexample: with an untrained predictor and every alphabet
letter guessed, the fallback is returned but it is the empty dict: its
probabilities sum to 0, not 1. -/
theorem claimC8_cex :
    List.lookup (['_'] : List Char).length (HangmanHMM.train []).models = none ∧
    sumAlpha ((HangmanHMM.train []).predict_letter_probabilities ['_'] alphabetFinset)
      ≠ 1 := by
  refine ⟨rfl, ?_⟩
  have hz : ∀ c, (HangmanHMM.train []).predict_letter_probabilities ['_'] alphabetFinset c
      = 0 := by
    intro c
    show (HangmanHMM.train []).fallback_probabilities alphabetFinset
      (['_'] : List Char).length c = 0
    unfold HangmanHMM.fallback_probabilities
    rw [remaining_freq_zero_of_not_mem _ _ _ _ (by simp), zero_div]
  have hsum : sumAlpha ((HangmanHMM.train []).predict_letter_probabilities ['_']
      alphabetFinset) = 0 := by
    rw [sumAlpha_eq_finsetSum]
    exact Finset.sum_eq_zero (fun c _ => hz c)
  rw [hsum]
  norm_num

/-- C7 (amended): `update_q_value` performs the one-step TD update
`Q[s,a] ← Q[s,a] + α·(r + γ·M − Q[s,a])` and changes no other entry,
where `M` is 0 when `done` or when nothing is recorded for the next
state's key, and otherwise the maximum recorded value — **provided** the
next state's key differs from `s` or the action is already recorded for
`s`.  (Otherwise the defaultdict read of `Q[s,a]` records `(s,a) ↦ 0`
first, and the maximum the source takes includes that extra 0.) -/
theorem claimC7 (lr gamma : ℚ) (q : QTable) (sk : StateKey) (a : Char) (r : ℚ)
    (sk' : StateKey) (done : Bool) (h : sk' ≠ sk ∨ a ∈ q.recorded sk) :
    (HangmanRLAgent.update_q_value lr gamma q sk a r sk' done).val sk a =
      q.val sk a + lr * (r + gamma *
        (if done = true ∨ q.recorded sk' = [] then 0
         else dictMax ((q.recorded sk').map (q.val sk'))) - q.val sk a) ∧
    (∀ k b, ¬(k = sk ∧ b = a) →
      (HangmanRLAgent.update_q_value lr gamma q sk a r sk' done).val k b = q.val k b) := by
  have hrec1 : (if sk' = sk then
      (if a ∈ q.recorded sk then q.recorded sk else q.recorded sk ++ [a])
      else q.recorded sk') = q.recorded sk' := by
    rcases h with h | h
    · rw [if_neg h]
    · by_cases hss : sk' = sk
      · rw [if_pos hss, if_pos h, hss]
      · rw [if_neg hss]
  unfold HangmanRLAgent.update_q_value
  dsimp only
  rw [hrec1]
  constructor
  · rw [if_pos ⟨rfl, rfl⟩]
    cases done with
    | true => norm_num
    | false =>
        by_cases hrec : q.recorded sk' = []
        · simp [hrec, dictMax]
        · simp [hrec]
  · intro k b hkb
    rw [if_neg hkb]

/-- C7 witness: a next-state key different from the current one. -/
theorem claimC7_witness :
    ((['x'], [], 0) ≠ cexStateKey ∨ 'a' ∈ cexQTable7.recorded cexStateKey) ∧
    ((HangmanRLAgent.update_q_value (1/10) (95/100) cexQTable7 cexStateKey 'a' 0
        (['x'], [], 0) false).val cexStateKey 'a' =
      cexQTable7.val cexStateKey 'a' + (1/10) * (0 + (95/100) *
        (if false = true ∨ cexQTable7.recorded (['x'], [], 0) = [] then 0
         else dictMax ((cexQTable7.recorded (['x'], [], 0)).map
           (cexQTable7.val (['x'], [], 0)))) - cexQTable7.val cexStateKey 'a') ∧
    (∀ k b, ¬(k = cexStateKey ∧ b = 'a') →
      (HangmanRLAgent.update_q_value (1/10) (95/100) cexQTable7 cexStateKey 'a' 0
        (['x'], [], 0) false).val k b = cexQTable7.val k b)) :=
  ⟨Or.inl (by decide),
    claimC7 (1/10) (95/100) cexQTable7 cexStateKey 'a' 0 (['x'], [], 0) false
      (Or.inl (by decide))⟩

/-- C7 counterexample: a repeated-guess self-transition
(`next_state_key = state_key`) with an action not yet recorded and a
negative recorded maximum.  The source's defaultdict read of
`Q[s,a]` inserts `(s,'a') ↦ 0` into the same inner dict first, so
`max_next_q` is `max(-3, 0) = 0` and the new value is `0`, while the
claim's rule with `M = max(recorded) = -3` predicts `-57/200`. -/
theorem claimC7_cex :
    cexQTable7.recorded cexStateKey ≠ [] ∧
    'a' ∉ cexQTable7.recorded cexStateKey ∧
    (HangmanRLAgent.update_q_value (1/10) (95/100) cexQTable7 cexStateKey 'a' 0 cexStateKey
        false).val cexStateKey 'a' ≠
      cexQTable7.val cexStateKey 'a' + (1/10) * (0 + (95/100) *
        dictMax ((cexQTable7.recorded cexStateKey).map (cexQTable7.val cexStateKey)) -
        cexQTable7.val cexStateKey 'a') := by
  refine ⟨by decide, by decide, ?_⟩
  have hval : ∀ b : Char, b ≠ 'b' → cexQTable7.val cexStateKey b = 0 := by
    intro b hb
    unfold cexQTable7
    dsimp only
    rw [if_neg]
    rintro ⟨-, hbb⟩
    exact hb hbb
  have hvalb : cexQTable7.val cexStateKey 'b' = -3 := by
    unfold cexQTable7
    dsimp only
    rw [if_pos ⟨rfl, rfl⟩]
  have hrecd : cexQTable7.recorded cexStateKey = ['b'] := by
    unfold cexQTable7
    dsimp only
    rw [if_pos rfl]
  have hlhs : (HangmanRLAgent.update_q_value (1/10) (95/100) cexQTable7 cexStateKey 'a' 0
      cexStateKey false).val cexStateKey 'a' = 0 := by
    unfold HangmanRLAgent.update_q_value
    dsimp only
    rw [if_pos ⟨rfl, rfl⟩, if_pos rfl, if_neg (by decide : 'a' ∉ cexQTable7.recorded
      cexStateKey), hrecd]
    rw [hval 'a' (by decide)]
    rw [if_neg (by decide : ¬ false = true)]
    rw [show ((['b'] ++ ['a']).map (cexQTable7.val cexStateKey)) = [-3, 0] from by
      rw [show (['b'] ++ ['a'] : List Char) = ['b', 'a'] from rfl, List.map_cons,
        List.map_cons, List.map_nil, hvalb, hval 'a' (by decide)]]
    rw [show dictMax [-3, 0] = 0 from by
      rw [dictMax, List.foldl_cons, List.foldl_nil, max_eq_right (by norm_num)]]
    norm_num
  rw [hlhs, hrecd, hval 'a' (by decide)]
  rw [show (['b'].map (cexQTable7.val cexStateKey)) = [-3] from by
    rw [List.map_cons, List.map_nil, hvalb]]
  rw [show dictMax [-3] = -3 from by rw [dictMax, List.foldl_nil]]
  norm_num

theorem exploitBest_ne_none (score : Char → ℚ) (l : List Char) (acc : Option (Char × ℚ))
    (h : l ≠ [] ∨ acc ≠ none) : HangmanRLAgent.exploitBest score l acc ≠ none := by
  induction l generalizing acc with
  | nil =>
      rcases h with h | h
      · exact absurd rfl h
      · exact h
  | cons a rest ih =>
      simp only [HangmanRLAgent.exploitBest]
      apply ih
      right
      cases acc with
      | none => simp
      | some p =>
          dsimp only
          split_ifs <;> simp

theorem exploitBest_le (score : Char → ℚ) (l : List Char) (acc : Option (Char × ℚ))
    (a : Char) (s : ℚ) (h : HangmanRLAgent.exploitBest score l acc = some (a, s)) :
    (∀ b ∈ l, score b ≤ s) ∧ (∀ p, acc = some p → p.2 ≤ s) := by
  induction l generalizing acc with
  | nil =>
      refine ⟨by simp, ?_⟩
      intro p hp
      rw [hp] at h
      obtain rfl : p = (a, s) := by simpa [HangmanRLAgent.exploitBest] using h
      exact le_refl _
  | cons x rest ih =>
      simp only [HangmanRLAgent.exploitBest] at h
      obtain ⟨hrest, hacc⟩ := ih _ h
      constructor
      · intro b hb
        rcases List.mem_cons.mp hb with rfl | hb
        · cases hon : acc with
          | none =>
              rw [hon] at h
              dsimp only at h
              exact (ih _ h).2 _ rfl
          | some p =>
              rw [hon] at h
              dsimp only at h
              by_cases hlt : p.2 < score b
              · rw [if_pos (by simpa using hlt)] at h
                exact (ih _ h).2 _ rfl
              · rw [if_neg (by simpa using hlt)] at h
                exact le_trans (not_lt.mp hlt) ((ih _ h).2 _ rfl)
        · exact hrest b hb
      · intro p hp
        rw [hp] at h
        dsimp only at h
        by_cases hlt : p.2 < score x
        · rw [if_pos (by simpa using hlt)] at h
          exact le_trans (le_of_lt hlt) ((ih _ h).2 _ rfl)
        · rw [if_neg (by simpa using hlt)] at h
          exact (ih _ h).2 _ rfl

theorem exploitBest_acc_or_mem (score : Char → ℚ) (l : List Char)
    (acc : Option (Char × ℚ)) :
    HangmanRLAgent.exploitBest score l acc = acc ∨
      ∃ a ∈ l, HangmanRLAgent.exploitBest score l acc = some (a, score a) := by
  induction l generalizing acc with
  | nil => exact Or.inl rfl
  | cons x rest ih =>
      simp only [HangmanRLAgent.exploitBest]
      by_cases hb : (match acc with
          | none => true
          | some (_, b) => decide (b < score x)) = true
      · rw [if_pos hb]
        rcases ih (some (x, score x)) with h | ⟨a, ha, h⟩
        · exact Or.inr ⟨x, List.mem_cons_self x rest, h⟩
        · exact Or.inr ⟨a, List.mem_cons_of_mem _ ha, h⟩
      · rw [if_neg hb]
        rcases ih acc with h | ⟨a, ha, h⟩
        · exact Or.inl h
        · exact Or.inr ⟨a, List.mem_cons_of_mem _ ha, h⟩

/-- C2 (amended): in the exploitation branch, for every non-empty list of
available actions the agent returns a letter whose combined score
`q_table[state_key][letter] + 10 × predictor probability (default 0.001)`
is maximal among the available letters (first-seen-wins on ties).  The
uniform-random fallback of line 72 is unreachable for non-empty
`available_actions`: a maximizing letter is returned even when every
combined score is non-positive. -/
theorem claimC2 (q : QTable) (state : GameState) (hmm_probs : Char → ℚ)
    (available_actions : List Char) (h : available_actions ≠ []) :
    ∃ a ∈ available_actions,
      HangmanRLAgent.choose_action_exploit q state hmm_probs available_actions =
        ActionResult.letter a ∧
      ∀ b ∈ available_actions,
        HangmanRLAgent.combined_score q (HangmanRLAgent.get_state_key state) hmm_probs b ≤
          HangmanRLAgent.combined_score q (HangmanRLAgent.get_state_key state)
            hmm_probs a := by
  unfold HangmanRLAgent.choose_action_exploit
  rw [if_neg (by simpa [List.isEmpty_iff] using h)]
  dsimp only
  cases hres : HangmanRLAgent.exploitBest
      (HangmanRLAgent.combined_score q (HangmanRLAgent.get_state_key state) hmm_probs)
      available_actions none with
  | none =>
      exact absurd hres (exploitBest_ne_none _ _ _ (Or.inl h))
  | some p =>
      obtain ⟨a, s⟩ := p
      rcases exploitBest_acc_or_mem
          (HangmanRLAgent.combined_score q (HangmanRLAgent.get_state_key state) hmm_probs)
          available_actions none with hacc | ⟨a', ha', heq⟩
      · rw [hres] at hacc
        exact absurd hacc (by simp)
      · rw [hres] at heq
        obtain ⟨rfl, hs⟩ : a' = a ∧ HangmanRLAgent.combined_score q
            (HangmanRLAgent.get_state_key state) hmm_probs a' = s := by
          constructor <;> [skip; skip] <;> injection heq with h1 <;> simp_all
        refine ⟨a', ha', ?_, ?_⟩
        · rfl
        · intro b hb
          rw [hs]
          exact (exploitBest_le _ _ _ _ _ hres).1 b hb

/-- C2 witness: one available action on a concrete table and state. -/
theorem claimC2_witness :
    (['a'] : List Char) ≠ [] ∧
    ∃ a ∈ (['a'] : List Char),
      HangmanRLAgent.choose_action_exploit cexQTable2 cexState2 cexProbs2 ['a'] =
        ActionResult.letter a ∧
      ∀ b ∈ (['a'] : List Char),
        HangmanRLAgent.combined_score cexQTable2 (HangmanRLAgent.get_state_key cexState2)
          cexProbs2 b ≤
        HangmanRLAgent.combined_score cexQTable2 (HangmanRLAgent.get_state_key cexState2)
          cexProbs2 a :=
  ⟨by decide, claimC2 cexQTable2 cexState2 cexProbs2 ['a'] (by decide)⟩

/-- C2 counterexample: every available letter has combined score
`-1 + 0.001·10 = -0.99 ≤ 0`, yet the code deterministically returns the
first letter `'a'` instead of the uniform-random fallback the claim
prescribes for all-non-positive scores. -/
theorem claimC2_cex :
    (∀ b ∈ (['a','b'] : List Char),
      HangmanRLAgent.combined_score cexQTable2 (HangmanRLAgent.get_state_key cexState2)
        cexProbs2 b ≤ 0) ∧
    HangmanRLAgent.choose_action_exploit cexQTable2 cexState2 cexProbs2 ['a','b'] =
      ActionResult.letter 'a' ∧
    ActionResult.letter 'a' ≠ ActionResult.randomChoice := by
  have hsc : ∀ b : Char, HangmanRLAgent.combined_score cexQTable2
      (HangmanRLAgent.get_state_key cexState2) cexProbs2 b = -99/100 := by
    intro b
    unfold HangmanRLAgent.combined_score cexQTable2 cexProbs2
    norm_num
  refine ⟨?_, ?_, by decide⟩
  · intro b hb
    rw [hsc b]
    norm_num
  · unfold HangmanRLAgent.choose_action_exploit
    rw [if_neg (by decide)]
    dsimp only
    simp only [HangmanRLAgent.exploitBest]
    rw [hsc 'a', hsc 'b']
    simp only [if_true]
    rw [decide_eq_false (lt_irrefl ((-99 : ℚ)/100))]
    simp only [Bool.false_eq_true, if_false]

/-! Sanity checks: the end-to-end scenario of spec §8 on the embedded
environment (`reset("cat")`, then `'a'`, `'a'` again, `'z'`, `'c'`,
`'t'`). -/

theorem sanity_reveal :
    ((HangmanEnvironment.reset 6 ['c','a','t']).step 'a').1.masked_word =
      ['_','a','_'] := by decide

theorem sanity_reward_correct :
    ((HangmanEnvironment.reset 6 ['c','a','t']).step 'a').2.1 = 10 := by decide

theorem sanity_reward_repeated :
    (((HangmanEnvironment.reset 6 ['c','a','t']).step 'a').1.step 'a').2.1 = -2 := by
  decide

theorem sanity_win :
    (HangmanEnvironment.runTrace (HangmanEnvironment.reset 6 ['c','a','t'])
      ['a','z','c','t']).won = true := by decide

theorem sanity_win_wrong_count :
    (HangmanEnvironment.runTrace (HangmanEnvironment.reset 6 ['c','a','t'])
      ['a','z','c','t']).wrong_guesses = 1 := by decide
